import Mathlib

/-!
Verification development for the Inverted-Index-and-Query-Processor repository.

The Python sources are shallowly embedded as Lean definitions:
* `src/indexer/index_merger.py` — the streaming k-way merge (`IndexMerger.merge`),
  its partial-file selection predicate and the lexicon records it emits;
* `src/indexer/partial_index_writer.py` — the partial-file naming scheme;
* `src/indexer/in_memory_indexer.py` — `InMemoryIndexer.index_document`;
* `src/processor/scorer.py` — `Scorer.compute_idf`, `compute_tfidf`, `compute_bm25`
  (floats are modelled by real numbers, a raised exception by `Option.none`);
* `src/processor.py` — `Processor._get_matching_docids`, `_score_document`,
  `_rank_documents` and the per-query part of `process_queries`.
-/

/-- One line of a partial or final inverted-index file:
`{"token": ..., "postings": [[docid, tf], ...]}`.  A posting is a
`(docid, term_frequency)` pair; docids are opaque strings. -/
structure IndexRecord where
  token : String
  postings : List (String × Nat)
  deriving DecidableEq, Repr

/-! ### The k-way merge of `IndexMerger.merge` (index_merger.py lines 19-62)

The merge keeps a heap holding, for each open partial file, its next unread
record.  Each round it pops the smallest token `t`, pops and concatenates the
postings of every other heap entry with token `t` (refilling each file's slot
from that file), emits one record for `t`, and refills the first file's slot.
We model the heap-and-files state by the list of the unread suffixes of the
files ("streams"): a round consumes the head of every stream whose head token
is the minimum head token.  This is faithful whenever each file has at most
one record per token (the sorted-partial contract), since then a freshly read
record can never re-enter the current round.  The heap's tie order between
equal tokens is modelled as the stream (file) order. -/

/-- Tokens currently at the head of each non-exhausted stream
(the tokens sitting in the merge heap). -/
def liveToks (streams : List (List IndexRecord)) : List String :=
  streams.filterMap (fun s => s.head?.map IndexRecord.token)

/-- Python string comparison (code-point lexicographic), as a boolean. -/
def strLtb (a b : String) : Bool :=
  decide (a.toList < b.toList)

/-- Minimum of a nonempty list of tokens, as `heapq` orders its keys. -/
def minOf (t : String) (ts : List String) : String :=
  ts.foldl (fun acc x => if strLtb x acc then x else acc) t

/-- The posting list one stream contributes to the current round: its head
postings when its head token is `m`, nothing otherwise. -/
def headPostingsFor (m : String) : List IndexRecord → List (String × Nat)
  | [] => []
  | r :: _ => if r.token = m then r.postings else []

/-- Python comparison of two `[docid, tf]` pairs: docid first, then tf. -/
def pairLtb (p q : String × Nat) : Bool :=
  decide (p.1.toList < q.1.toList) || (p.1 == q.1 && decide (p.2 < q.2))

/-- Python list comparison of two postings arrays: elementwise by `pairLtb`,
a strict prefix being smaller. -/
def postingsLtb : List (String × Nat) → List (String × Nat) → Bool
  | [], [] => false
  | [], _ :: _ => true
  | _ :: _, [] => false
  | p :: ps, q :: qs =>
    if pairLtb p q then true
    else if pairLtb q p then false
    else postingsLtb ps qs

/-- Insertion step of sorting postings lists ascending in `postingsLtb`. -/
def insertPostings (x : List (String × Nat)) :
    List (List (String × Nat)) → List (List (String × Nat))
  | [] => [x]
  | y :: ys => if postingsLtb x y then x :: y :: ys else y :: insertPostings x ys

/-- Sort postings lists ascending in Python's list order. -/
def sortPostingsLists (l : List (List (String × Nat))) :
    List (List (String × Nat)) :=
  l.foldr insertPostings []

/-- Postings written for token `m` in one round
(`merged_postings.extend(more_postings)`, index_merger.py lines 36-40).
The heap orders its `(term, postings, fp)` entries as Python tuples, so the
tied entries for `m` are popped in ascending order of their postings lists —
not in file order.  We sort the per-stream head contributions (empty for
streams whose head token is not `m`; the extra empties do not affect the
concatenation) and concatenate. -/
def mergedFor (streams : List (List IndexRecord)) (m : String) : List (String × Nat) :=
  (sortPostingsLists (streams.map (headPostingsFor m))).flatten

/-- Drop the head of one stream when its head token is `m` (that record was
consumed by the round and the file's next record took its heap slot). -/
def advanceOne (m : String) : List IndexRecord → List IndexRecord
  | [] => []
  | r :: rest => if r.token = m then rest else r :: rest

/-- Advance every stream whose head token is `m` past that head
(each popped file reads its next record, index_merger.py lines 42-44, 60-62). -/
def advance (streams : List (List IndexRecord)) (m : String) : List (List IndexRecord) :=
  streams.map (advanceOne m)

/-- Total number of unread records, used as fuel for the merge loop. -/
def totalLen (streams : List (List IndexRecord)) : Nat :=
  (streams.map List.length).sum

/-- The merge loop (`while self.heap:`), with explicit fuel.  Each round emits
`{"token": t, "postings": merged}` for the smallest live token `t`. -/
def mergeAllFuel : Nat → List (List IndexRecord) → List IndexRecord
  | 0, _ => []
  | Nat.succ fuel, streams =>
    match liveToks streams with
    | [] => []
    | t :: ts =>
      { token := minOf t ts, postings := mergedFor streams (minOf t ts) } ::
        mergeAllFuel fuel (advance streams (minOf t ts))

/-- The records written to `final_inverted_index.jsonl` by `IndexMerger.merge`,
given the contents of the selected partial files. -/
def mergeAll (streams : List (List IndexRecord)) : List IndexRecord :=
  mergeAllFuel (totalLen streams) streams

/-- The `(term, postings)` prefixes of the heap entries currently alive: one
per non-exhausted stream.  Python compares heap entries as tuples, so two
entries that agree on this prefix fall through to comparing the unorderable
file objects and raise `TypeError`. -/
def headKeys (streams : List (List IndexRecord)) :
    List (String × List (String × Nat)) :=
  streams.filterMap (fun s => s.head?.map (fun r => (r.token, r.postings)))

/-- The merge loop with the `TypeError` path: when two live heap entries
share both token and postings, comparing them reaches the file objects and
the program crashes (`none`) instead of producing a merged index.  With two
such entries in the heap the collision is certain; for larger heaps the model
errs on the side of failing, which the distinct-records hypothesis of the
theorems below renders moot. -/
def mergeAllFuelE : Nat → List (List IndexRecord) → Option (List IndexRecord)
  | 0, _ => some []
  | Nat.succ fuel, streams =>
    if (headKeys streams).Nodup then
      match liveToks streams with
      | [] => some []
      | t :: ts =>
        (mergeAllFuelE fuel (advance streams (minOf t ts))).map
          (fun rest =>
            { token := minOf t ts, postings := mergedFor streams (minOf t ts) } :: rest)
    else none

/-- The outcome of `IndexMerger.merge` on the selected partial files:
`some` records written to `final_inverted_index.jsonl`, or `none` when the
heap comparison raises `TypeError`. -/
def mergeAllE (streams : List (List IndexRecord)) : Option (List IndexRecord) :=
  mergeAllFuelE (totalLen streams) streams

/-- A partial file as written by `PartialIndexWriter.write_to_disk`:
records strictly ascending by token (`for token in sorted(index.keys())`
over distinct dict keys), hence at most one record per token. -/
def SortedStream (s : List IndexRecord) : Prop :=
  List.Chain' (fun a b => a.token < b.token) s

/-- No record occurs in two different partial files.  Under this condition no
two heap entries ever agree on `(term, postings)`, so no comparison reaches
the file objects and the merge cannot raise `TypeError`. -/
def StreamsDisjoint (streams : List (List IndexRecord)) : Prop :=
  List.Pairwise (fun s1 s2 => ∀ r, r ∈ s1 → r ∉ s2) streams

/-! ### File names (partial_index_writer.py line 32, index_merger.py line 20)

File names are modelled as character lists. -/

/-- Models `startswith`: `p` is an initial segment of `s`. -/
def hasPrefixCL : List Char → List Char → Bool
  | [], _ => true
  | _ :: _, [] => false
  | a :: as, b :: bs => a == b && hasPrefixCL as bs

/-- Models `endswith`: `p` is a final segment of `s`. -/
def hasSufCL (p s : List Char) : Bool :=
  hasPrefixCL p.reverse s.reverse

/-- The name `f"partial_index_\x7bworker_id\x7d_\x7bcounter\x7d.jsonl"` with the two rendered
numbers abstracted as character lists. -/
def partialIndexFileChars (workerId counter : List Char) : List Char :=
  "partial_index_".toList ++ workerId ++ ('_' :: counter) ++ ".jsonl".toList

/-- The merger's input filter:
`f.startswith('index_') and f.endswith('.jsonl')` (index_merger.py line 20). -/
def mergerSelectsChars (f : List Char) : Bool :=
  hasPrefixCL "index_".toList f && hasSufCL ".jsonl".toList f

/-! ### Lexicon records (index_merger.py lines 46-58, scorer.py line 53) -/

/-- Computes `doc_frequency = len(merged_postings)` (index_merger.py line 46). -/
def doc_frequencyOf (r : IndexRecord) : Nat :=
  r.postings.length

/-- Computes `term_frequency_corpus = sum(freq for _, freq in merged_postings)`
(index_merger.py line 47). -/
def term_frequency_corpusOf (r : IndexRecord) : Nat :=
  (r.postings.map Prod.snd).sum

/-- The JSON keys of each emitted lexicon record, in dictionary order
(index_merger.py lines 53-57). -/
def lexiconEntryKeys : List String :=
  ["token", "doc_frequency", "term_frequency_corpus"]

/-- The key under which `Scorer.compute_idf` reads the document frequency from
a lexicon record: `token_info['document_frequency']` (scorer.py line 53). -/
def scorerDfKey : String :=
  "document_frequency"

/-- The lexicon lines written alongside the final index: one
`(token, doc_frequency, term_frequency_corpus)` triple per emitted record,
in the same loop iteration and hence in the same order. -/
def lexiconOf (out : List IndexRecord) : List (String × Nat × Nat) :=
  out.map (fun r => (r.token, doc_frequencyOf r, term_frequency_corpusOf r))

/-! ### A run of `IndexMerger.merge` over a directory (index_merger.py lines 19-66)

`merge` lists the directory, keeps the names passing `mergerSelectsChars`,
k-way merges their contents, opens `final_inverted_index.jsonl` and
`lexicon.jsonl` in write (truncating) mode for the output, and finally
deletes every file it opened as input.  Neither output name starts with
`"index_"`, so the outputs are never among the inputs; we keep them as
separate fields. -/
structure DirState where
  finalIndex : List IndexRecord
  lexicon : List (String × Nat × Nat)
  partials : List (List Char × List IndexRecord)
  deriving DecidableEq

/-- One run of `IndexMerger.merge` on a directory state. -/
def merger_run (st : DirState) : DirState :=
  { finalIndex :=
      mergeAll ((st.partials.filter (fun p => mergerSelectsChars p.1)).map Prod.snd)
    lexicon :=
      lexiconOf
        (mergeAll ((st.partials.filter (fun p => mergerSelectsChars p.1)).map Prod.snd))
    partials := st.partials.filter (fun p => !mergerSelectsChars p.1) }

/-- The posting lists contributed by one input file for token `tok`: the
concatenated postings of its records with that token (at most one record in a
sorted partial). -/
def postingsFor (tok : String) (s : List IndexRecord) : List (String × Nat) :=
  ((s.filter (fun rr => rr.token == tok)).map IndexRecord.postings).flatten

/-! ### `InMemoryIndexer.index_document` (in_memory_indexer.py lines 39-58)

The mutable state is the accumulated index (`defaultdict(list)`), the posting
counter and the precomputed `max_entries`.  A document's token-frequency map
(`collections.Counter`) is modelled as an ordered association list, matching
Python's insertion-ordered dict iteration. -/

structure IndexerState where
  index : String → List (String × Nat)
  entry_count : Nat
  max_entries : Nat

/-- The `for token in tokens_frequency_dict` loop: append `(docid, tf)` to the
token's list, bump the counter, and — as soon as the counter reaches
`max_entries` — zero the counter and return `True` at once, without touching
the remaining tokens of the document. -/
def indexDocLoop (docid : String) (st : IndexerState) :
    List (String × Nat) → IndexerState × Bool
  | [] => (st, false)
  | (token, tf) :: rest =>
    let st' : IndexerState :=
      { st with
        index := fun t => if t = token then st.index token ++ [(docid, tf)] else st.index t
        entry_count := st.entry_count + 1 }
    if st'.entry_count ≥ st'.max_entries then
      ({ st' with entry_count := 0 }, true)
    else
      indexDocLoop docid st' rest

/-- Embeds `InMemoryIndexer.index_document(docid, tokens_frequency_dict)`. -/
def index_document (st : IndexerState) (docid : String)
    (tokens_frequency_dict : List (String × Nat)) : IndexerState × Bool :=
  indexDocLoop docid st tokens_frequency_dict

/-- A fresh `InMemoryIndexer` with the given precomputed `max_entries`. -/
def initialIndexerState (maxEntries : Nat) : IndexerState :=
  { index := fun _ => [], entry_count := 0, max_entries := maxEntries }

/-! ### `Scorer` (scorer.py)

Floats are modelled by real numbers.  A Python exception (`ZeroDivisionError`,
`TypeError` on `None` subscription) is modelled by `Option.none`; a returned
score by `some`.  The scorer state carries the lexicon as
`token ↦ document-frequency value` (the value `compute_idf` reads from a
lexicon record), the document index as `docid ↦ token_count`, and the corpus
and BM25 parameters.  The IDF cache of scorer.py lines 44-47 and 62 only
memoizes the value computed here and is dropped from the model. -/

inductive Ranker where
  | bm25 : Ranker
  | tfidf : Ranker
  deriving DecidableEq

structure ScorerState where
  lexicon : String → Option Nat
  document_index : String → Option Nat
  total_documents : Nat
  average_document_token_count : ℝ
  k1 : ℝ
  b : ℝ
  ranker : Ranker

/-- Embeds `Scorer.compute_idf` (scorer.py lines 37-63): `0.0` for a token missing
from the lexicon, else the BM25 or TF-IDF smoothed IDF. -/
noncomputable def compute_idf (S : ScorerState) (token : String) : ℝ :=
  match S.lexicon token with
  | none => 0
  | some df =>
    match S.ranker with
    | Ranker.bm25 =>
      Real.log (1 + ((S.total_documents : ℝ) - (df : ℝ) + 0.5) / ((df : ℝ) + 0.5))
    | Ranker.tfidf =>
      Real.log (((S.total_documents : ℝ) + 1) / ((df : ℝ) + 1))

/-- Embeds `Scorer.compute_tfidf` (scorer.py lines 65-84): `0.0` when the docid is
missing from the document index; otherwise
`(term_frequency / token_count) * idf`, where a zero `token_count` raises
`ZeroDivisionError` (modelled as `none`). -/
noncomputable def compute_tfidf (S : ScorerState) (token : String)
    (term_frequency : Nat) (docid : String) : Option ℝ :=
  match S.document_index docid with
  | none => some 0
  | some token_count =>
    if token_count = 0 then none
    else some (((term_frequency : ℝ) / (token_count : ℝ)) * compute_idf S token)

/-- Embeds `Scorer.compute_bm25` (scorer.py lines 86-111): a docid missing from the
document index raises `TypeError` (`doc_info['token_count']` on `None`,
modelled as `none`); a zero `average_document_token_count` raises
`ZeroDivisionError`; a zero denominator returns `0.0`; otherwise
`idf * (tf * (k1 + 1)) / (tf + k1 * (1 - b + b * token_count / avgdl))`. -/
noncomputable def compute_bm25 (S : ScorerState) (token : String)
    (term_frequency : Nat) (docid : String) : Option ℝ :=
  match S.document_index docid with
  | none => none
  | some token_count =>
    if S.average_document_token_count = 0 then none
    else
      if (term_frequency : ℝ) + S.k1 * (1 - S.b + S.b *
          ((token_count : ℝ) / S.average_document_token_count)) = 0 then
        some 0
      else
        some (compute_idf S token *
          (((term_frequency : ℝ) * (S.k1 + 1)) /
            ((term_frequency : ℝ) + S.k1 * (1 - S.b + S.b *
              ((token_count : ℝ) / S.average_document_token_count)))))

/-! ### The query processor (processor.py)

The loaded inverted index is `token ↦ posting list`, with `.get(token, [])`
semantics for absent tokens. -/

/-- The docid set of one token's posting list
(`set(docid for docid, _ in self.inverted_index.get(token, []))`). -/
def docidsOf (inverted_index : String → List (String × Nat)) (token : String) :
    Finset String :=
  ((inverted_index token).map Prod.fst).toFinset

/-- Embeds `Processor._get_matching_docids` (processor.py lines 119-131):
`set.intersection(*postings) if postings else set()`. -/
def get_matching_docids (inverted_index : String → List (String × Nat))
    (tokens : List String) : Finset String :=
  match tokens.map (docidsOf inverted_index) with
  | [] => ∅
  | s :: ss => ss.foldl (· ∩ ·) s

/-- Score contribution of one matched posting, dispatched on the ranker as in
`Processor._score_document` (processor.py lines 149-152). -/
noncomputable def token_contribution (S : ScorerState) (token : String)
    (frequency : Nat) (docid : String) : Option ℝ :=
  match S.ranker with
  | Ranker.tfidf => compute_tfidf S token frequency docid
  | Ranker.bm25 => compute_bm25 S token frequency docid

/-- Embeds `Processor._score_document` (processor.py lines 133-153): sum, over the
query tokens and over the postings of each token that carry the candidate
docid, of the per-token contribution; a raised exception aborts the sum. -/
noncomputable def score_document (S : ScorerState)
    (inverted_index : String → List (String × Nat)) (docid : String)
    (tokens : List String) : Option ℝ :=
  tokens.foldl
    (fun acc token =>
      (inverted_index token).foldl
        (fun a p =>
          match a with
          | none => none
          | some s =>
            if p.1 = docid then (token_contribution S token p.2 docid).map (s + ·)
            else some s)
        acc)
    (some 0)

/-- Python tuple order on `(score, docid)` pairs, used by the result heap. -/
noncomputable def insertDescPair (x : ℝ × String) :
    List (ℝ × String) → List (ℝ × String)
  | [] => [x]
  | y :: ys =>
    if y.1 < x.1 ∨ (y.1 = x.1 ∧ y.2 < x.2) then x :: y :: ys
    else y :: insertDescPair x ys

/-- Sort `(score, docid)` pairs descending in tuple order, as
`heapq.nlargest` presents them. -/
noncomputable def sortDescPair (l : List (ℝ × String)) : List (ℝ × String) :=
  l.foldr insertDescPair []

/-- Embeds `Processor._rank_documents` (processor.py lines 155-176): score every
candidate docid, then return the `k` largest `(score, docid)` pairs in
descending tuple order.  Python iterates the candidate set in unspecified
order; the model fixes the ascending docid order. -/
noncomputable def rank_documents (S : ScorerState)
    (inverted_index : String → List (String × Nat)) (query_tokens : List String)
    (docids : Finset String) (k : Nat) : Option (List (ℝ × String)) :=
  ((docids.sort (· ≤ ·)).mapM
    (fun d => (score_document S inverted_index d query_tokens).map (fun s => (s, d)))).map
    (fun scored => (sortDescPair scored).take k)

/-- One output line of `Processor.process_queries`
(`{"Query": q, "Results": [{"ID": docid, "Score": score}, ...]}`); a result
entry is kept as its `(score, docid)` pair. -/
structure QueryOutput where
  Query : String
  Results : List (ℝ × String)

/-- The per-query body of `Processor.process_queries` (processor.py lines
212-237): compute the candidate set; on zero candidates emit the record with
an empty result list; otherwise rank and emit the top 10. -/
noncomputable def process_query (S : ScorerState)
    (inverted_index : String → List (String × Nat)) (query : String)
    (tokens : List String) : Option QueryOutput :=
  if get_matching_docids inverted_index tokens = ∅ then
    some { Query := query, Results := [] }
  else
    (rank_documents S inverted_index tokens
      (get_matching_docids inverted_index tokens) 10).map
      (fun rs => { Query := query, Results := rs })

/-! ### Concrete fixtures used by the witness theorems -/

/-- A scorer over the two-document S1 corpus of the spec, BM25 ranking, with
token `alpha` of document frequency 1 in the lexicon. -/
noncomputable def sIdf : ScorerState :=
  { lexicon := fun t => if t = "alpha" then some 1 else none
    document_index := fun _ => none
    total_documents := 2
    average_document_token_count := 1
    k1 := 1.5
    b := 0.75
    ranker := Ranker.bm25 }

/-- A TF-IDF scorer whose document index records a zero `token_count` for
document `d0`. -/
noncomputable def sTfidfZero : ScorerState :=
  { lexicon := fun _ => some 1
    document_index := fun d => if d = "d0" then some 0 else none
    total_documents := 1
    average_document_token_count := 1
    k1 := 1.5
    b := 0.75
    ranker := Ranker.tfidf }

/-- A BM25 scorer with degenerate parameters `k1 = 0`, `b = 0` that make the
BM25 denominator vanish at `term_frequency = 0`. -/
noncomputable def sDenZero : ScorerState :=
  { lexicon := fun _ => none
    document_index := fun d => if d = "d0" then some 0 else none
    total_documents := 1
    average_document_token_count := 1
    k1 := 0
    b := 0
    ranker := Ranker.bm25 }

/-- A scorer whose document index is empty (every docid is missing). -/
noncomputable def sMissing : ScorerState :=
  { lexicon := fun _ => some 1
    document_index := fun _ => none
    total_documents := 1
    average_document_token_count := 1
    k1 := 1.5
    b := 0.75
    ranker := Ranker.bm25 }

/-- A scorer over an empty corpus, used for query-path fixtures. -/
noncomputable def sQuery : ScorerState :=
  { lexicon := fun _ => none
    document_index := fun _ => none
    total_documents := 0
    average_document_token_count := 1
    k1 := 1.5
    b := 0.75
    ranker := Ranker.bm25 }

/-- A loaded inverted index where only token `a` has postings. -/
def invIdxW : String → List (String × Nat) :=
  fun t => if t = "a" then [("d1", 1)] else []

/-! ## Supporting lemmas -/

theorem strLtb_iff (a b : String) : strLtb a b = true ↔ a < b := by
  rw [strLtb, decide_eq_true_iff, String.lt_iff_toList_lt]

theorem minOf_le_seed (t : String) (ts : List String) : minOf t ts ≤ t := by
  induction ts generalizing t with
  | nil => exact le_rfl
  | cons x xs ih =>
    show minOf (if strLtb x t then x else t) xs ≤ t
    refine le_trans (ih _) ?_
    by_cases h : strLtb x t = true
    · rw [if_pos h]
      exact le_of_lt ((strLtb_iff x t).mp h)
    · rw [if_neg h]

theorem minOf_le_mem (t : String) (ts : List String) :
    ∀ x ∈ ts, minOf t ts ≤ x := by
  induction ts generalizing t with
  | nil => intro x hx; cases hx
  | cons y ys ih =>
    intro x hx
    rcases List.mem_cons.mp hx with hx | hx
    · subst hx
      show minOf (if strLtb x t then x else t) ys ≤ x
      refine le_trans (minOf_le_seed _ _) ?_
      by_cases h : strLtb x t = true
      · rw [if_pos h]
      · rw [if_neg h]
        exact le_of_not_lt (fun hc => h ((strLtb_iff x t).mpr hc))
    · exact ih _ x hx

theorem minOf_le (t : String) (ts : List String) :
    ∀ x ∈ t :: ts, minOf t ts ≤ x := by
  intro x hx
  rcases List.mem_cons.mp hx with hx | hx
  · exact hx ▸ minOf_le_seed t ts
  · exact minOf_le_mem t ts x hx

theorem minOf_mem (t : String) (ts : List String) : minOf t ts ∈ t :: ts := by
  induction ts generalizing t with
  | nil => exact List.mem_singleton.mpr rfl
  | cons y ys ih =>
    have hrw : minOf t (y :: ys) = minOf (if strLtb y t then y else t) ys := rfl
    rw [hrw]
    rcases List.mem_cons.mp (ih (if strLtb y t then y else t)) with h | h
    · rw [h]
      by_cases hb : strLtb y t = true
      · rw [if_pos hb]
        exact List.mem_cons.mpr (Or.inr (List.mem_cons_self y ys))
      · rw [if_neg hb]
        exact List.mem_cons_self t (y :: ys)
    · exact List.mem_cons.mpr (Or.inr (List.mem_cons.mpr (Or.inr h)))

theorem liveToks_cons_cons (r : IndexRecord) (rest : List IndexRecord)
    (ss : List (List IndexRecord)) :
    liveToks ((r :: rest) :: ss) = r.token :: liveToks ss := by
  simp [liveToks]

theorem liveToks_nil_cons (ss : List (List IndexRecord)) :
    liveToks ([] :: ss) = liveToks ss := by
  simp [liveToks]

theorem mem_liveToks {streams : List (List IndexRecord)} {tok : String} :
    tok ∈ liveToks streams ↔
      ∃ s ∈ streams, ∃ r rest, s = r :: rest ∧ r.token = tok := by
  rw [liveToks, List.mem_filterMap]
  constructor
  · rintro ⟨s, hs, hmap⟩
    cases s with
    | nil => simp at hmap
    | cons r rest =>
      refine ⟨r :: rest, hs, r, rest, rfl, ?_⟩
      simpa using hmap
  · rintro ⟨s, hs, r, rest, heq, htok⟩
    subst heq
    exact ⟨r :: rest, hs, by simpa using htok⟩

theorem liveToks_nil_iff {streams : List (List IndexRecord)} :
    liveToks streams = [] ↔ ∀ s ∈ streams, s = [] := by
  rw [liveToks, List.filterMap_eq_nil_iff]
  constructor
  · intro h s hs
    have := h s hs
    cases s with
    | nil => rfl
    | cons r rest => simp at this
  · intro h s hs
    rw [h s hs]
    rfl

theorem totalLen_advance_le (streams : List (List IndexRecord)) (m : String) :
    totalLen (advance streams m) ≤ totalLen streams := by
  induction streams with
  | nil => exact le_rfl
  | cons s ss ih =>
    have hs : (advanceOne m s).length ≤ s.length := by
      cases s with
      | nil => exact le_rfl
      | cons r rest =>
        by_cases h : r.token = m
        · simp [advanceOne, h]
        · simp [advanceOne, h]
    calc totalLen (advance (s :: ss) m)
        = (advanceOne m s).length + totalLen (advance ss m) := by
          simp [advance, totalLen]
      _ ≤ s.length + totalLen ss := Nat.add_le_add hs ih
      _ = totalLen (s :: ss) := by simp [totalLen]

theorem totalLen_advance_lt (streams : List (List IndexRecord)) (m : String)
    (h : m ∈ liveToks streams) :
    totalLen (advance streams m) < totalLen streams := by
  induction streams with
  | nil => simp [liveToks] at h
  | cons s ss ih =>
    cases s with
    | nil =>
      have h' : m ∈ liveToks ss := by simpa [liveToks] using h
      have := ih h'
      simpa [advance, advanceOne, totalLen] using this
    | cons r rest =>
      have hsplit : m = r.token ∨ m ∈ liveToks ss := by
        rw [liveToks_cons_cons] at h
        exact List.mem_cons.mp h
      have hstep : totalLen (advance ((r :: rest) :: ss) m)
          = (if r.token = m then rest else r :: rest).length + totalLen (advance ss m) := by
        simp [advance, advanceOne, totalLen]
      rcases hsplit with h1 | h1
      · rw [hstep, if_pos h1.symm]
        have : totalLen (advance ss m) ≤ totalLen ss := totalLen_advance_le ss m
        have hlen : rest.length < (r :: rest).length := by simp
        calc rest.length + totalLen (advance ss m)
            ≤ rest.length + totalLen ss := Nat.add_le_add_left this _
          _ < (r :: rest).length + totalLen ss := Nat.add_lt_add_right hlen _
          _ = totalLen ((r :: rest) :: ss) := by simp [totalLen]
      · rw [hstep]
        have hlt := ih h1
        have hlen : (if r.token = m then rest else r :: rest).length ≤ (r :: rest).length := by
          by_cases hc : r.token = m
          · simp [hc]
          · simp [hc]
        calc (if r.token = m then rest else r :: rest).length + totalLen (advance ss m)
            ≤ (r :: rest).length + totalLen (advance ss m) := Nat.add_le_add_right hlen _
          _ < (r :: rest).length + totalLen ss := Nat.add_lt_add_left hlt _
          _ = totalLen ((r :: rest) :: ss) := by simp [totalLen]

instance tokenLtTrans : IsTrans IndexRecord (fun a b => a.token < b.token) :=
  ⟨fun _ _ _ h1 h2 => lt_trans h1 h2⟩

theorem sortedStream_pairwise {s : List IndexRecord} (h : SortedStream s) :
    List.Pairwise (fun a b => a.token < b.token) s :=
  List.chain'_iff_pairwise.mp h

theorem advanceOne_sorted {s : List IndexRecord} {m : String} (h : SortedStream s) :
    SortedStream (advanceOne m s) := by
  cases s with
  | nil => exact h
  | cons r rest =>
    show SortedStream (if r.token = m then rest else r :: rest)
    by_cases hc : r.token = m
    · rw [if_pos hc]
      exact h.tail
    · rw [if_neg hc]
      exact h

theorem mem_advanceOne_sub {s : List IndexRecord} {m : String} {r : IndexRecord}
    (h : r ∈ advanceOne m s) : r ∈ s := by
  cases s with
  | nil => simp [advanceOne] at h
  | cons r0 rest =>
    by_cases hc : r0.token = m
    · rw [advanceOne, if_pos hc] at h
      exact List.mem_cons.mpr (Or.inr h)
    · rwa [advanceOne, if_neg hc] at h

theorem advance_sorted {streams : List (List IndexRecord)} {m : String}
    (h : ∀ s ∈ streams, SortedStream s) :
    ∀ s' ∈ advance streams m, SortedStream s' := by
  intro s' hs'
  rcases List.mem_map.mp hs' with ⟨s, hs, rfl⟩
  exact advanceOne_sorted (h s hs)

theorem advance_records (streams : List (List IndexRecord)) (m : String) :
    ∀ s' ∈ advance streams m, ∀ r ∈ s', ∃ s ∈ streams, r ∈ s := by
  intro s' hs' r hr
  rcases List.mem_map.mp hs' with ⟨s, hs, rfl⟩
  exact ⟨s, hs, mem_advanceOne_sub hr⟩

theorem advance_token_gt {streams : List (List IndexRecord)} {m : String}
    (hsort : ∀ s ∈ streams, SortedStream s)
    (hmin : ∀ x ∈ liveToks streams, m ≤ x) :
    ∀ s' ∈ advance streams m, ∀ r ∈ s', m < r.token := by
  intro s' hs' r hr
  rcases List.mem_map.mp hs' with ⟨s, hs, rfl⟩
  cases s with
  | nil => simp [advanceOne] at hr
  | cons r0 rest =>
    have hhead : m ≤ r0.token :=
      hmin r0.token (mem_liveToks.mpr ⟨r0 :: rest, hs, r0, rest, rfl, rfl⟩)
    have hpair := List.pairwise_cons.mp (sortedStream_pairwise (hsort _ hs))
    by_cases hc : r0.token = m
    · rw [advanceOne, if_pos hc] at hr
      exact hc ▸ hpair.1 r hr
    · rw [advanceOne, if_neg hc] at hr
      have hlt : m < r0.token := lt_of_le_of_ne hhead (fun he => hc he.symm)
      rcases List.mem_cons.mp hr with hr | hr
      · exact hr ▸ hlt
      · exact lt_trans hlt (hpair.1 r hr)

theorem mergeAllFuel_token_lt (fuel : Nat) :
    ∀ (streams : List (List IndexRecord)) (m : String),
      (∀ s ∈ streams, SortedStream s) →
      (∀ s ∈ streams, ∀ r ∈ s, m < r.token) →
      ∀ r ∈ mergeAllFuel fuel streams, m < r.token := by
  induction fuel with
  | zero => intro streams m _ _ r hr; simp [mergeAllFuel] at hr
  | succ fuel ih =>
    intro streams m hsort hbound r hr
    rcases hl : liveToks streams with _ | ⟨t, ts⟩
    · rw [mergeAllFuel, hl] at hr
      simp at hr
    · rw [mergeAllFuel, hl] at hr
      rcases List.mem_cons.mp hr with hr | hr
    --  the emitted record carries the minimum live token, a head token
      · have hmem : minOf t ts ∈ liveToks streams := hl ▸ minOf_mem t ts
        rcases mem_liveToks.mp hmem with ⟨s, hs, r0, rest, heq, htok⟩
        have : m < r0.token := hbound s hs r0 (heq ▸ List.mem_cons_self r0 rest)
        rw [hr]
        exact htok ▸ this
      · exact ih (advance streams (minOf t ts)) m (advance_sorted hsort)
          (fun s' hs' r' hr' => by
            rcases advance_records streams (minOf t ts) s' hs' r' hr' with ⟨s, hs, hrs⟩
            exact hbound s hs r' hrs) r hr

theorem mergeAllFuel_sorted (fuel : Nat) :
    ∀ (streams : List (List IndexRecord)),
      (∀ s ∈ streams, SortedStream s) →
      List.Chain' (fun a b : IndexRecord => a.token < b.token)
        (mergeAllFuel fuel streams) := by
  induction fuel with
  | zero => intro streams _; simp [mergeAllFuel]
  | succ fuel ih =>
    intro streams hsort
    rcases hl : liveToks streams with _ | ⟨t, ts⟩
    · rw [mergeAllFuel, hl]
      simp
    · rw [mergeAllFuel, hl]
      refine List.chain'_cons'.mpr ⟨?_, ih _ (advance_sorted hsort)⟩
      intro y hy
      have hy' : y ∈ mergeAllFuel fuel (advance streams (minOf t ts)) :=
        List.mem_of_mem_head? hy
      exact mergeAllFuel_token_lt fuel _ (minOf t ts) (advance_sorted hsort)
        (advance_token_gt hsort (fun x hx => minOf_le t ts x (hl ▸ hx))) y hy'

theorem totalLen_zero_all_nil {streams : List (List IndexRecord)}
    (h : totalLen streams = 0) : ∀ s ∈ streams, s = [] := by
  intro s hs
  have : s.length = 0 := by
    rw [totalLen] at h
    exact Nat.eq_zero_of_le_zero
      (h ▸ List.le_sum_of_mem (List.mem_map.mpr ⟨s, hs, rfl⟩))
  exact List.eq_nil_of_length_eq_zero this

theorem mem_advanceOne_cases {s : List IndexRecord} {m : String} {r : IndexRecord}
    (hr : r ∈ s) : r ∈ advanceOne m s ∨ r.token = m := by
  cases s with
  | nil => cases hr
  | cons r0 rest =>
    by_cases hc : r0.token = m
    · rw [advanceOne, if_pos hc]
      rcases List.mem_cons.mp hr with hr | hr
      · exact Or.inr (hr ▸ hc)
      · exact Or.inl hr
    · rw [advanceOne, if_neg hc]
      exact Or.inl hr

theorem mergeAllFuel_token_mem (fuel : Nat) :
    ∀ (streams : List (List IndexRecord)), totalLen streams ≤ fuel →
      ∀ tok : String,
        ((∃ r ∈ mergeAllFuel fuel streams, r.token = tok) ↔
          ∃ s ∈ streams, ∃ r ∈ s, r.token = tok) := by
  induction fuel with
  | zero =>
    intro streams hle tok
    have hnil := totalLen_zero_all_nil (Nat.le_zero.mp hle)
    constructor
    · rintro ⟨r, hr, _⟩
      simp [mergeAllFuel] at hr
    · rintro ⟨s, hs, r, hr, _⟩
      rw [hnil s hs] at hr
      cases hr
  | succ fuel ih =>
    intro streams hle tok
    rcases hl : liveToks streams with _ | ⟨t, ts⟩
    · have hnil := liveToks_nil_iff.mp hl
      constructor
      · rintro ⟨r, hr, _⟩
        rw [mergeAllFuel, hl] at hr
        cases hr
      · rintro ⟨s, hs, r, hr, _⟩
        rw [hnil s hs] at hr
        cases hr
    · have hminmem : minOf t ts ∈ liveToks streams := hl ▸ minOf_mem t ts
      have hle' : totalLen (advance streams (minOf t ts)) ≤ fuel :=
        Nat.lt_succ_iff.mp (lt_of_lt_of_le (totalLen_advance_lt streams _ hminmem) hle)
      constructor
      · rintro ⟨r, hr, htok⟩
        rw [mergeAllFuel, hl] at hr
        rcases List.mem_cons.mp hr with hr | hr
        · rcases mem_liveToks.mp hminmem with ⟨s, hs, r0, rest, heq, htok0⟩
          refine ⟨s, hs, r0, heq ▸ List.mem_cons_self r0 rest, ?_⟩
          rw [htok0, ← htok, hr]
        · rcases ((ih _ hle' tok).mp ⟨r, hr, htok⟩) with ⟨s', hs', r', hr', htok'⟩
          rcases advance_records streams (minOf t ts) s' hs' r' hr' with ⟨s, hs, hrs⟩
          exact ⟨s, hs, r', hrs, htok'⟩
      · rintro ⟨s, hs, r, hr, htok⟩
        rw [mergeAllFuel, hl]
        rcases mem_advanceOne_cases (m := minOf t ts) hr with hadv | hmin
        · have : ∃ r' ∈ mergeAllFuel fuel (advance streams (minOf t ts)), r'.token = tok :=
            (ih _ hle' tok).mpr
              ⟨advanceOne (minOf t ts) s, List.mem_map.mpr ⟨s, hs, rfl⟩, r, hadv, htok⟩
          rcases this with ⟨r', hr', htok'⟩
          exact ⟨r', List.mem_cons.mpr (Or.inr hr'), htok'⟩
        · refine ⟨{ token := minOf t ts, postings := mergedFor streams (minOf t ts) },
            List.mem_cons_self _ _, ?_⟩
          rw [← htok, hmin]

theorem postingsFor_nil (tok : String) : postingsFor tok [] = [] := rfl

theorem headPostingsFor_eq_postingsFor {s : List IndexRecord} {m : String}
    (hs : SortedStream s)
    (hhead : ∀ r0 rest, s = r0 :: rest → m ≤ r0.token) :
    headPostingsFor m s = postingsFor m s := by
  cases s with
  | nil => rfl
  | cons r0 rest =>
    have hpair := List.pairwise_cons.mp (sortedStream_pairwise hs)
    by_cases hc : r0.token = m
    · have hrest : rest.filter (fun rr => rr.token == m) = [] := by
        refine List.filter_eq_nil_iff.mpr ?_
        intro rr hrr
        have hlt : r0.token < rr.token := hpair.1 rr hrr
        simp only [beq_iff_eq]
        intro he
        rw [hc, he] at hlt
        exact lt_irrefl m hlt
      rw [headPostingsFor, if_pos hc, postingsFor, List.filter_cons_of_pos (by simp [hc]),
        hrest]
      simp
    · have hm : m < r0.token :=
        lt_of_le_of_ne (hhead r0 rest rfl) (fun he => hc he.symm)
      have hall : (r0 :: rest).filter (fun rr => rr.token == m) = [] := by
        refine List.filter_eq_nil_iff.mpr ?_
        intro rr hrr
        simp only [beq_iff_eq]
        intro he
        rcases List.mem_cons.mp hrr with h1 | h1
        · exact hc (h1 ▸ he)
        · exact absurd (he ▸ hpair.1 rr h1) (not_lt_of_gt hm)
      rw [headPostingsFor, if_neg hc, postingsFor, hall]
      rfl

theorem postingsFor_advanceOne {s : List IndexRecord} {m tok : String}
    (hne : tok ≠ m) :
    postingsFor tok (advanceOne m s) = postingsFor tok s := by
  cases s with
  | nil => rfl
  | cons r0 rest =>
    by_cases hc : r0.token = m
    · rw [advanceOne, if_pos hc, postingsFor, postingsFor,
        List.filter_cons_of_neg
          (by simp only [hc, beq_iff_eq]; exact fun h => hne h.symm)]
    · rw [advanceOne, if_neg hc]

theorem perm_flatten {α : Type} {l1 l2 : List (List α)} (h : l1.Perm l2) :
    l1.flatten.Perm l2.flatten := by
  induction h with
  | nil => exact List.Perm.refl _
  | cons x _ ih => simpa using ih.append_left x
  | swap x y l =>
    simp only [List.flatten_cons]
    rw [← List.append_assoc, ← List.append_assoc]
    exact List.perm_append_comm.append_right _
  | trans _ _ ih1 ih2 => exact ih1.trans ih2

theorem insertPostings_perm (x : List (String × Nat)) :
    ∀ l : List (List (String × Nat)), (insertPostings x l).Perm (x :: l) := by
  intro l
  induction l with
  | nil => exact List.Perm.refl _
  | cons y ys ih =>
    rw [insertPostings]
    by_cases h : postingsLtb x y = true
    · rw [if_pos h]
    · rw [if_neg h]
      exact (ih.cons y).trans (List.Perm.swap x y ys)

theorem sortPostingsLists_perm (l : List (List (String × Nat))) :
    (sortPostingsLists l).Perm l := by
  induction l with
  | nil => exact List.Perm.refl _
  | cons x xs ih =>
    exact (insertPostings_perm x (sortPostingsLists xs)).trans (ih.cons x)

theorem mergedFor_perm (streams : List (List IndexRecord)) (m : String) :
    (mergedFor streams m).Perm ((streams.map (headPostingsFor m)).flatten) :=
  perm_flatten (sortPostingsLists_perm _)

theorem mergeAllFuel_postings_perm (fuel : Nat) :
    ∀ (streams : List (List IndexRecord)), totalLen streams ≤ fuel →
      (∀ s ∈ streams, SortedStream s) →
      ∀ r ∈ mergeAllFuel fuel streams,
        r.postings.Perm ((streams.map (postingsFor r.token)).flatten) := by
  induction fuel with
  | zero => intro streams _ _ r hr; simp [mergeAllFuel] at hr
  | succ fuel ih =>
    intro streams hle hsort r hr
    rcases hl : liveToks streams with _ | ⟨t, ts⟩
    · rw [mergeAllFuel, hl] at hr
      cases hr
    · have hminmem : minOf t ts ∈ liveToks streams := hl ▸ minOf_mem t ts
      have hminle : ∀ x ∈ liveToks streams, minOf t ts ≤ x :=
        fun x hx => minOf_le t ts x (hl ▸ hx)
      have hle' : totalLen (advance streams (minOf t ts)) ≤ fuel :=
        Nat.lt_succ_iff.mp (lt_of_lt_of_le (totalLen_advance_lt streams _ hminmem) hle)
      rw [mergeAllFuel, hl] at hr
      rcases List.mem_cons.mp hr with hr | hr
      · subst hr
        show (mergedFor streams (minOf t ts)).Perm
          ((streams.map (postingsFor (minOf t ts))).flatten)
        have heq : (streams.map (headPostingsFor (minOf t ts))).flatten
            = (streams.map (postingsFor (minOf t ts))).flatten := by
          congr 1
          refine List.map_congr_left ?_
          intro s hs
          refine headPostingsFor_eq_postingsFor (hsort s hs) ?_
          intro r0 rest heq
          exact hminle r0.token (mem_liveToks.mpr ⟨s, hs, r0, rest, heq, rfl⟩)
        exact heq ▸ mergedFor_perm streams (minOf t ts)
      · have htokgt : minOf t ts < r.token :=
          mergeAllFuel_token_lt fuel _ (minOf t ts) (advance_sorted hsort)
            (advance_token_gt hsort hminle) r hr
        have hperm := ih (advance streams (minOf t ts)) hle' (advance_sorted hsort) r hr
        have heq : ((advance streams (minOf t ts)).map (postingsFor r.token)).flatten
            = (streams.map (postingsFor r.token)).flatten := by
          rw [advance, List.map_map]
          congr 1
          refine List.map_congr_left ?_
          intro s _
          exact postingsFor_advanceOne (fun he => absurd (he ▸ htokgt) (lt_irrefl _))
        exact heq ▸ hperm

theorem indexRecord_eq {r1 r2 : IndexRecord} (ht : r1.token = r2.token)
    (hp : r1.postings = r2.postings) : r1 = r2 := by
  cases r1
  cases r2
  simp_all

theorem headKeys_nodup_of_disjoint :
    ∀ {streams : List (List IndexRecord)}, StreamsDisjoint streams →
      (headKeys streams).Nodup := by
  intro streams h
  induction streams with
  | nil => simp [headKeys]
  | cons s ss ih =>
    have hd := List.pairwise_cons.mp h
    cases s with
    | nil =>
      show (headKeys ss).Nodup
      exact ih hd.2
    | cons r rest =>
      show ((r.token, r.postings) :: headKeys ss).Nodup
      refine List.nodup_cons.mpr ⟨?_, ih hd.2⟩
      intro hmem
      rcases List.mem_filterMap.mp hmem with ⟨s', hs', hmap⟩
      cases s' with
      | nil => simp at hmap
      | cons r' rest' =>
        have hfields : r'.token = r.token ∧ r'.postings = r.postings := by
          simpa using hmap
        have hrr : r' = r := indexRecord_eq hfields.1 hfields.2
        exact hd.1 _ hs' r (List.mem_cons_self r rest)
          (hrr ▸ List.mem_cons_self r' rest')

theorem advance_disjoint {streams : List (List IndexRecord)} {m : String}
    (h : StreamsDisjoint streams) : StreamsDisjoint (advance streams m) := by
  rw [advance, StreamsDisjoint, List.pairwise_map]
  exact h.imp (fun h12 r hr1 hr2 =>
    h12 r (mem_advanceOne_sub hr1) (mem_advanceOne_sub hr2))

theorem mergeAllFuelE_eq (fuel : Nat) :
    ∀ streams : List (List IndexRecord), StreamsDisjoint streams →
      mergeAllFuelE fuel streams = some (mergeAllFuel fuel streams) := by
  induction fuel with
  | zero => intro streams _; rfl
  | succ fuel ih =>
    intro streams hdis
    rw [mergeAllFuelE, mergeAllFuel, if_pos (headKeys_nodup_of_disjoint hdis)]
    rcases hl : liveToks streams with _ | ⟨t, ts⟩
    · rfl
    · show Option.map
          (fun rest =>
            { token := minOf t ts, postings := mergedFor streams (minOf t ts) } :: rest)
          (mergeAllFuelE fuel (advance streams (minOf t ts)))
        = some ({ token := minOf t ts, postings := mergedFor streams (minOf t ts) } ::
            mergeAllFuel fuel (advance streams (minOf t ts)))
      rw [ih (advance streams (minOf t ts)) (advance_disjoint hdis)]
      rfl

theorem mem_foldl_inter (d : String) :
    ∀ (ss : List (Finset String)) (s : Finset String),
      (d ∈ ss.foldl (· ∩ ·) s ↔ d ∈ s ∧ ∀ x ∈ ss, d ∈ x) := by
  intro ss
  induction ss with
  | nil => intro s; simp
  | cons x xs ih =>
    intro s
    rw [List.foldl_cons, ih (s ∩ x)]
    simp only [Finset.mem_inter, List.forall_mem_cons]
    tauto

/-! ## Claim theorems -/

/-- C1: the claim says `IndexMerger.merge` consumes every partial index file
written by `PartialIndexWriter` (named `partial_index_<worker>_<counter>.jsonl`).
In fact the merger's directory filter keeps only names that start with
`"index_"`, so no file the writer creates is ever selected: for every worker
id and counter, the selection predicate rejects the name. -/
theorem merger_never_selects_partial_files :
    ∀ workerId counter : List Char,
      mergerSelectsChars (partialIndexFileChars workerId counter) = false :=
  fun _ _ => rfl

/-- C2: the claim says `index_document` appends one posting for every unique
token of the document and leaves no token unindexed.  With `max_entries = 1`
and the two-token document `[("a", 1), ("b", 1)]`, the call returns `true`
after appending the posting for `"a"`, resets the counter, and never touches
`"b"`: token `"b"` is left unindexed. -/
theorem index_document_drops_tokens_after_threshold :
    (index_document (initialIndexerState 1) "d1" [("a", 1), ("b", 1)]).2 = true ∧
    (index_document (initialIndexerState 1) "d1" [("a", 1), ("b", 1)]).1.index "a"
      = [("d1", 1)] ∧
    (index_document (initialIndexerState 1) "d1" [("a", 1), ("b", 1)]).1.index "b"
      = [] ∧
    (index_document (initialIndexerState 1) "d1" [("a", 1), ("b", 1)]).1.entry_count
      = 0 :=
  ⟨rfl, rfl, rfl, rfl⟩

/-- C3: the claim says each lexicon record has exactly the fields `token`,
`document_frequency` and `term_frequency_corpus`.  The merger actually writes
the key `doc_frequency`, while the scorer reads `document_frequency` — the
key the claim (and the scorer) names is not among the emitted keys.  The
value and ordering parts of the claim hold: each triple carries
`|postings|` and `Σ tf`, and the lexicon's token order is the final index's
token order. -/
theorem lexicon_key_mismatch :
    scorerDfKey = "document_frequency" ∧
    scorerDfKey ∉ lexiconEntryKeys ∧
    "doc_frequency" ∈ lexiconEntryKeys ∧
    (∀ out : List IndexRecord,
      (lexiconOf out).map Prod.fst = out.map IndexRecord.token) ∧
    (∀ r : IndexRecord,
      doc_frequencyOf r = r.postings.length ∧
      term_frequency_corpusOf r = (r.postings.map Prod.snd).sum) := by
  refine ⟨rfl, by decide, by decide, ?_, fun r => ⟨rfl, rfl⟩⟩
  intro out
  simp [lexiconOf]

/-- C4 counterexample: the claim says two `(docid, tf)` entries for the same
token and docid are combined into a single entry with summed `tf`.  Merging
two partials that both hold token `"t"` with postings for docid `"d1"` (tf 2
and tf 3) completes and emits both entries `[("d1", 2), ("d1", 3)]` — the
smaller postings list first, as the heap pops ties — not the single summed
entry `[("d1", 5)]`. -/
theorem merge_no_coalescing :
    mergeAllE [[⟨"t", [("d1", 2)]⟩], [⟨"t", [("d1", 3)]⟩]]
      = some [⟨"t", [("d1", 2), ("d1", 3)]⟩] ∧
    mergeAllE [[⟨"t", [("d1", 2)]⟩], [⟨"t", [("d1", 3)]⟩]]
      ≠ some [⟨"t", [("d1", 5)]⟩] := by
  exact ⟨by decide, by decide⟩

/-- C4 amended: the merge never coalesces: for sorted partials that share no
record, the merge completes and the posting list it emits for each token
consists of exactly the `(docid, tf)` entries of the partials' posting lists
for that token, each kept as its own entry with its `tf` unsummed (a
permutation of their concatenation; equal-token heads are consumed in
ascending postings order). -/
theorem merge_keeps_entries_unsummed (streams : List (List IndexRecord))
    (hs : ∀ s ∈ streams, SortedStream s) (hdisj : StreamsDisjoint streams) :
    mergeAllE streams = some (mergeAll streams) ∧
    ∀ r ∈ mergeAll streams,
      r.postings.Perm ((streams.map (postingsFor r.token)).flatten) :=
  ⟨mergeAllFuelE_eq (totalLen streams) streams hdisj,
   fun r hr => mergeAllFuel_postings_perm (totalLen streams) streams le_rfl hs r hr⟩

theorem merge_keeps_entries_unsummed_witness :
    (∀ s ∈ [[(⟨"t", [("d1", 2)]⟩ : IndexRecord)], [⟨"t", [("d1", 3)]⟩]],
      SortedStream s) ∧
    StreamsDisjoint [[(⟨"t", [("d1", 2)]⟩ : IndexRecord)], [⟨"t", [("d1", 3)]⟩]] ∧
    (mergeAllE [[(⟨"t", [("d1", 2)]⟩ : IndexRecord)], [⟨"t", [("d1", 3)]⟩]]
      = some (mergeAll [[(⟨"t", [("d1", 2)]⟩ : IndexRecord)], [⟨"t", [("d1", 3)]⟩]]) ∧
    ∀ r ∈ mergeAll [[(⟨"t", [("d1", 2)]⟩ : IndexRecord)], [⟨"t", [("d1", 3)]⟩]],
      r.postings.Perm
        (([[(⟨"t", [("d1", 2)]⟩ : IndexRecord)], [⟨"t", [("d1", 3)]⟩]].map
            (postingsFor r.token)).flatten)) := by
  have hs : ∀ s ∈ [[(⟨"t", [("d1", 2)]⟩ : IndexRecord)], [⟨"t", [("d1", 3)]⟩]],
      SortedStream s := by
    intro s hsmem
    fin_cases hsmem <;> exact List.chain'_singleton _
  have hdisj : StreamsDisjoint
      [[(⟨"t", [("d1", 2)]⟩ : IndexRecord)], [⟨"t", [("d1", 3)]⟩]] := by
    refine List.pairwise_cons.mpr ⟨?_, List.pairwise_singleton _ _⟩
    intro s2 hs2 r hr1 hr2
    rcases List.mem_singleton.mp hs2 with rfl
    rcases List.mem_singleton.mp hr1 with rfl
    exact absurd (List.mem_singleton.mp hr2) (by decide)
  exact ⟨hs, hdisj, merge_keeps_entries_unsummed _ hs hdisj⟩

/-- C5 counterexample: the claim quantifies over all sets of self-sorted
partials, but two sorted one-record partials both holding
`{"token": "t", "postings": [["d1", 2]]}` make the heap compare two entries
with equal `(term, postings)`: the comparison falls through to the file
objects and raises `TypeError`, so no merged index is produced at all —
in particular no index with one record per distinct token. -/
theorem merge_identical_partials_crash :
    (∀ s ∈ [[(⟨"t", [("d1", 2)]⟩ : IndexRecord)], [⟨"t", [("d1", 2)]⟩]],
      SortedStream s) ∧
    mergeAllE [[(⟨"t", [("d1", 2)]⟩ : IndexRecord)], [⟨"t", [("d1", 2)]⟩]]
      = none := by
  constructor
  · intro s hsmem
    fin_cases hsmem <;> exact List.chain'_singleton _
  · decide

/-- C5 amended: for input partials that are each strictly sorted by token
(hence at most one record per token) and that share no record (so no heap
comparison ever reaches the unorderable file objects), the merge completes
and the final index it produces is strictly increasing by token, with no
duplicate token and with exactly the tokens occurring in some partial. -/
theorem final_index_sorted_when_no_shared_records (streams : List (List IndexRecord))
    (hs : ∀ s ∈ streams, SortedStream s) (hdisj : StreamsDisjoint streams) :
    mergeAllE streams = some (mergeAll streams) ∧
    List.Chain' (fun a b : IndexRecord => a.token < b.token) (mergeAll streams) ∧
    ((mergeAll streams).map IndexRecord.token).Nodup ∧
    ∀ tok, ((∃ r ∈ mergeAll streams, r.token = tok) ↔
      ∃ s ∈ streams, ∃ r ∈ s, r.token = tok) := by
  have hchain := mergeAllFuel_sorted (totalLen streams) streams hs
  refine ⟨mergeAllFuelE_eq (totalLen streams) streams hdisj, hchain, ?_,
    fun tok => mergeAllFuel_token_mem (totalLen streams) streams le_rfl tok⟩
  have hp := List.chain'_iff_pairwise.mp hchain
  exact List.pairwise_map.mpr (hp.imp (fun h => ne_of_lt h))

theorem final_index_sorted_when_no_shared_records_witness :
    (∀ s ∈ [[(⟨"a", [("d1", 1)]⟩ : IndexRecord), ⟨"b", []⟩], [⟨"b", [("d2", 1)]⟩]],
      SortedStream s) ∧
    StreamsDisjoint [[(⟨"a", [("d1", 1)]⟩ : IndexRecord), ⟨"b", []⟩],
      [⟨"b", [("d2", 1)]⟩]] ∧
    (mergeAllE [[(⟨"a", [("d1", 1)]⟩ : IndexRecord), ⟨"b", []⟩], [⟨"b", [("d2", 1)]⟩]]
      = some (mergeAll [[(⟨"a", [("d1", 1)]⟩ : IndexRecord), ⟨"b", []⟩],
          [⟨"b", [("d2", 1)]⟩]]) ∧
    List.Chain' (fun a b : IndexRecord => a.token < b.token)
      (mergeAll [[(⟨"a", [("d1", 1)]⟩ : IndexRecord), ⟨"b", []⟩], [⟨"b", [("d2", 1)]⟩]]) ∧
    ((mergeAll [[(⟨"a", [("d1", 1)]⟩ : IndexRecord), ⟨"b", []⟩],
        [⟨"b", [("d2", 1)]⟩]]).map IndexRecord.token).Nodup ∧
    ∀ tok, ((∃ r ∈ mergeAll [[(⟨"a", [("d1", 1)]⟩ : IndexRecord), ⟨"b", []⟩],
        [⟨"b", [("d2", 1)]⟩]], r.token = tok) ↔
      ∃ s ∈ [[(⟨"a", [("d1", 1)]⟩ : IndexRecord), ⟨"b", []⟩], [⟨"b", [("d2", 1)]⟩]],
        ∃ r ∈ s, r.token = tok)) := by
  have hab : ("a" : String) < "b" := String.lt_iff_toList_lt.mpr (by decide)
  have hs : ∀ s ∈ [[(⟨"a", [("d1", 1)]⟩ : IndexRecord), ⟨"b", []⟩],
      [⟨"b", [("d2", 1)]⟩]], SortedStream s := by
    intro s hsmem
    fin_cases hsmem
    · exact List.chain'_cons.mpr ⟨hab, List.chain'_singleton _⟩
    · exact List.chain'_singleton _
  have hdisj : StreamsDisjoint [[(⟨"a", [("d1", 1)]⟩ : IndexRecord), ⟨"b", []⟩],
      [⟨"b", [("d2", 1)]⟩]] := by
    refine List.pairwise_cons.mpr ⟨?_, List.pairwise_singleton _ _⟩
    intro s2 hs2 r hr1 hr2
    rcases List.mem_singleton.mp hs2 with rfl
    rcases List.mem_singleton.mp hr2 with rfl
    rcases List.mem_cons.mp hr1 with h | h
    · exact absurd h (by decide)
    · exact absurd (List.mem_singleton.mp h) (by decide)
  exact ⟨hs, hdisj, final_index_sorted_when_no_shared_records _ hs hdisj⟩

/-- C6 counterexample: the claim says re-running the merger over a directory
holding a final index and lexicon but no partial files is a no-op.  With a
nonempty final index already present, the run rewrites
`final_inverted_index.jsonl` in `'w'` mode from zero selected inputs and
leaves it empty, not byte-identical. -/
theorem merge_rerun_not_noop :
    (merger_run ⟨[⟨"alpha", [("d1", 2)]⟩], [("alpha", 1, 2)], []⟩).finalIndex
      ≠ [⟨"alpha", [("d1", 2)]⟩] ∧
    (merger_run ⟨[⟨"alpha", [("d1", 2)]⟩], [("alpha", 1, 2)], []⟩).finalIndex
      = [] := by
  exact ⟨by decide, by decide⟩

/-- C6 amended: when no file in the directory passes the merger's input
filter (in particular when no partial files are present), the run truncates
the final index and lexicon to empty files and deletes nothing; it is a no-op
only if the final index was already empty. -/
theorem merge_rerun_truncates_outputs (st : DirState)
    (h : ∀ p ∈ st.partials, mergerSelectsChars p.1 = false) :
    (merger_run st).finalIndex = [] ∧
    (merger_run st).lexicon = [] ∧
    (merger_run st).partials = st.partials ∧
    ((merger_run st).finalIndex = st.finalIndex ↔ st.finalIndex = []) := by
  have hsel : st.partials.filter (fun p => mergerSelectsChars p.1) = [] := by
    refine List.filter_eq_nil_iff.mpr ?_
    intro p hp
    rw [h p hp]
    simp
  have hfin : (merger_run st).finalIndex = [] := by
    show mergeAll ((st.partials.filter (fun p => mergerSelectsChars p.1)).map Prod.snd)
      = []
    rw [hsel]
    rfl
  have hlex : (merger_run st).lexicon = [] := by
    show lexiconOf
        (mergeAll ((st.partials.filter (fun p => mergerSelectsChars p.1)).map Prod.snd))
      = []
    rw [hsel]
    rfl
  refine ⟨hfin, hlex, ?_, ?_⟩
  · show st.partials.filter (fun p => !mergerSelectsChars p.1) = st.partials
    refine List.filter_eq_self.mpr ?_
    intro p hp
    rw [h p hp]
    rfl
  · constructor
    · intro h1
      rw [hfin] at h1
      exact h1.symm
    · intro h1
      rw [hfin, h1]

theorem merge_rerun_truncates_outputs_witness :
    (∀ p ∈ (⟨[⟨"alpha", [("d1", 2)]⟩], [("alpha", 1, 2)], []⟩ : DirState).partials,
      mergerSelectsChars p.1 = false) ∧
    ((merger_run ⟨[⟨"alpha", [("d1", 2)]⟩], [("alpha", 1, 2)], []⟩).finalIndex = [] ∧
    (merger_run ⟨[⟨"alpha", [("d1", 2)]⟩], [("alpha", 1, 2)], []⟩).lexicon = [] ∧
    (merger_run ⟨[⟨"alpha", [("d1", 2)]⟩], [("alpha", 1, 2)], []⟩).partials
      = (⟨[⟨"alpha", [("d1", 2)]⟩], [("alpha", 1, 2)], []⟩ : DirState).partials ∧
    ((merger_run ⟨[⟨"alpha", [("d1", 2)]⟩], [("alpha", 1, 2)], []⟩).finalIndex
        = (⟨[⟨"alpha", [("d1", 2)]⟩], [("alpha", 1, 2)], []⟩ : DirState).finalIndex ↔
      (⟨[⟨"alpha", [("d1", 2)]⟩], [("alpha", 1, 2)], []⟩ : DirState).finalIndex = [])) := by
  have h : ∀ p ∈ (⟨[⟨"alpha", [("d1", 2)]⟩], [("alpha", 1, 2)], []⟩ : DirState).partials,
      mergerSelectsChars p.1 = false := by
    intro p hp
    cases hp
  exact ⟨h, merge_rerun_truncates_outputs _ h⟩

/-- C7: `Scorer.compute_idf` returns exactly
`ln(1 + (N - df + 0.5) / (df + 0.5))` under BM25 and exactly
`ln((N + 1) / (df + 1))` under TF-IDF for a token of document frequency `df`
in the lexicon, and `0` for a token absent from the lexicon. -/
theorem compute_idf_formulas (S : ScorerState) (token : String) :
    (∀ df : Nat, 1 ≤ df → S.lexicon token = some df →
      (S.ranker = Ranker.bm25 →
        compute_idf S token
          = Real.log (1 + ((S.total_documents : ℝ) - (df : ℝ) + 0.5) / ((df : ℝ) + 0.5))) ∧
      (S.ranker = Ranker.tfidf →
        compute_idf S token
          = Real.log (((S.total_documents : ℝ) + 1) / ((df : ℝ) + 1)))) ∧
    (S.lexicon token = none → compute_idf S token = 0) := by
  constructor
  · intro df _ hlex
    constructor
    · intro hr
      simp only [compute_idf, hlex, hr]
    · intro hr
      simp only [compute_idf, hlex, hr]
  · intro hnone
    simp only [compute_idf, hnone]

theorem compute_idf_formulas_witness :
    (1 ≤ 1) ∧ sIdf.lexicon "alpha" = some 1 ∧ sIdf.ranker = Ranker.bm25 ∧
    compute_idf sIdf "alpha"
      = Real.log (1 + ((sIdf.total_documents : ℝ) - ((1 : Nat) : ℝ) + 0.5)
          / (((1 : Nat) : ℝ) + 0.5)) := by
  have h1 : sIdf.lexicon "alpha" = some 1 := by simp [sIdf]
  exact ⟨le_rfl, h1, rfl, ((compute_idf_formulas sIdf "alpha").1 1 le_rfl h1).1 rfl⟩

/-- C8 counterexample: the claim says a zero scoring denominator yields zero
for both rankers.  For TF-IDF, a document with `token_count = 0` makes
`term_frequency / doc_info['token_count']` raise `ZeroDivisionError`
(modelled `none`), not return zero. -/
theorem tfidf_zero_denominator_raises :
    sTfidfZero.document_index "d0" = some 0 ∧
    compute_tfidf sTfidfZero "t" 1 "d0" = none ∧
    compute_tfidf sTfidfZero "t" 1 "d0" ≠ some 0 := by
  have hd : sTfidfZero.document_index "d0" = some 0 := by simp [sTfidfZero]
  have hn : compute_tfidf sTfidfZero "t" 1 "d0" = none := by
    simp [compute_tfidf, hd]
  refine ⟨hd, hn, ?_⟩
  rw [hn]
  exact fun hc => Option.noConfusion hc

/-- C8 amended: only BM25 guards the zero denominator: `compute_bm25` returns
zero when `tf + k1 * (1 - b + b * token_count / avg_doc_length) = 0`, while
`compute_tfidf` has no guard and a zero `token_count` raises
`ZeroDivisionError` instead of returning a score. -/
theorem zero_denominator_guard_only_bm25 (S : ScorerState) (token docid : String)
    (tf tc : Nat) (hd : S.document_index docid = some tc) :
    (S.average_document_token_count ≠ 0 →
      (tf : ℝ) + S.k1 * (1 - S.b + S.b * ((tc : ℝ) / S.average_document_token_count))
        = 0 →
      compute_bm25 S token tf docid = some 0) ∧
    (tc = 0 → compute_tfidf S token tf docid = none) := by
  constructor
  · intro havg hden
    simp only [compute_bm25, hd]
    rw [if_neg havg, if_pos hden]
  · intro htc
    subst htc
    simp [compute_tfidf, hd]

theorem zero_denominator_guard_only_bm25_witness :
    sDenZero.document_index "d0" = some 0 ∧
    compute_bm25 sDenZero "t" 0 "d0" = some 0 ∧
    compute_tfidf sDenZero "t" 0 "d0" = none := by
  have hd : sDenZero.document_index "d0" = some 0 := by simp [sDenZero]
  have havg : sDenZero.average_document_token_count ≠ 0 := by
    simp [sDenZero]
  have hden : ((0 : Nat) : ℝ) + sDenZero.k1 *
      (1 - sDenZero.b + sDenZero.b * (((0 : Nat) : ℝ) / sDenZero.average_document_token_count))
        = 0 := by
    simp [sDenZero]
  exact ⟨hd, (zero_denominator_guard_only_bm25 sDenZero "t" "d0" 0 0 hd).1 havg hden,
    (zero_denominator_guard_only_bm25 sDenZero "t" "d0" 0 0 hd).2 rfl⟩

/-- C9: for a query with at least one token, the candidate set computed by
`_get_matching_docids` is the intersection of the docid sets of all the
query's tokens' posting lists — in particular empty as soon as one token has
no postings — and a query with zero candidates produces the output record
with an empty `Results` list, not an error. -/
theorem candidate_set_conjunctive (inverted_index : String → List (String × Nat))
    (tokens : List String) (S : ScorerState) (query : String) :
    (tokens ≠ [] →
      ∀ d, d ∈ get_matching_docids inverted_index tokens ↔
        ∀ t ∈ tokens, d ∈ docidsOf inverted_index t) ∧
    ((∃ t ∈ tokens, inverted_index t = []) →
      get_matching_docids inverted_index tokens = ∅) ∧
    (get_matching_docids inverted_index tokens = ∅ →
      process_query S inverted_index query tokens
        = some { Query := query, Results := [] }) := by
  have hmain : tokens ≠ [] →
      ∀ d, d ∈ get_matching_docids inverted_index tokens ↔
        ∀ t ∈ tokens, d ∈ docidsOf inverted_index t := by
    intro hne d
    cases tokens with
    | nil => exact absurd rfl hne
    | cons t0 ts =>
      show d ∈ (ts.map (docidsOf inverted_index)).foldl (· ∩ ·)
          (docidsOf inverted_index t0) ↔ _
      rw [mem_foldl_inter]
      constructor
      · rintro ⟨h1, h2⟩ t ht
        rcases List.mem_cons.mp ht with h | h
        · exact h ▸ h1
        · exact h2 _ (List.mem_map.mpr ⟨t, h, rfl⟩)
      · intro hall
        refine ⟨hall t0 (List.mem_cons_self _ _), ?_⟩
        intro x hx
        rcases List.mem_map.mp hx with ⟨t, ht, rfl⟩
        exact hall t (List.mem_cons.mpr (Or.inr ht))
  refine ⟨hmain, ?_, ?_⟩
  · rintro ⟨t0, ht0, hempty⟩
    have hne : tokens ≠ [] := List.ne_nil_of_mem ht0
    rw [Finset.eq_empty_iff_forall_not_mem]
    intro d hd
    have hmem := (hmain hne d).mp hd t0 ht0
    rw [docidsOf, hempty] at hmem
    simp at hmem
  · intro hempty
    rw [process_query, if_pos hempty]

theorem candidate_set_conjunctive_witness :
    (∃ t ∈ ["a", "b"], invIdxW t = []) ∧
    get_matching_docids invIdxW ["a", "b"] = ∅ ∧
    process_query sQuery invIdxW "q" ["a", "b"]
      = some { Query := "q", Results := [] } := by
  have hex : ∃ t ∈ ["a", "b"], invIdxW t = [] :=
    ⟨"b", by simp, by simp [invIdxW]⟩
  have hempty := (candidate_set_conjunctive invIdxW ["a", "b"] sQuery "q").2.1 hex
  exact ⟨hex, hempty,
    (candidate_set_conjunctive invIdxW ["a", "b"] sQuery "q").2.2 hempty⟩

/-- C10: `compute_tfidf` guards a docid missing from the document index and
returns `0.0`, while `compute_bm25` subscripts the missing entry and fails
(`doc_info['token_count']` on `None`, modelled `none`). -/
theorem missing_docid_guard_asymmetry (S : ScorerState) (token docid : String)
    (tf : Nat) (h : S.document_index docid = none) :
    compute_tfidf S token tf docid = some 0 ∧
    compute_bm25 S token tf docid = none := by
  constructor
  · simp [compute_tfidf, h]
  · simp [compute_bm25, h]

theorem missing_docid_guard_asymmetry_witness :
    sMissing.document_index "dX" = none ∧
    compute_tfidf sMissing "t" 1 "dX" = some 0 ∧
    compute_bm25 sMissing "t" 1 "dX" = none := by
  have h : sMissing.document_index "dX" = none := rfl
  exact ⟨h, (missing_docid_guard_asymmetry sMissing "t" "dX" 1 h).1,
    (missing_docid_guard_asymmetry sMissing "t" "dX" 1 h).2⟩
